import Mathlib

/-!
Verification of the detection-evaluation core of the `cnn_by_density_map`
repository: per-instance metrics (`eval_metrics`), the mask-index extraction
(`get_masked_index`), the masked ground-truth loader (`get_ground_truth`),
the optimal-assignment detection matcher (`evaluate` / `eval_detection`),
and the parameter-search driver control flow (`search`) with its result
store (`update_summury_metrics`, `store_percentile_results`).

Python integer/float division raising `ZeroDivisionError` is embedded as
`Except.error`; machine floats are idealised as `ℚ` (exact) or `ℝ` (for the
Euclidean distances of the matcher).
-/

namespace CnnDensityMap

open scoped List

/-- Per-instance detection metrics, translated from `eval_metrics` in
`individual-detection/src/utils.py` (the same four formulas appear inline in
`src/model/evaluation.py`, lines 95-98).  The four divisions are evaluated in
source order (accuracy, precision, recall, f-measure); a zero denominator
raises `ZeroDivisionError` in Python, embedded here as `Except.error`. -/
def eval_metrics (true_positive false_positive false_negative sample_num : ℕ) :
    Except String (ℚ × ℚ × ℚ × ℚ) :=
  if sample_num = 0 then Except.error "ZeroDivisionError" else
  let accuracy : ℚ := (true_positive : ℚ) / (sample_num : ℚ)
  if true_positive + false_positive = 0 then Except.error "ZeroDivisionError" else
  let precision : ℚ := (true_positive : ℚ) / ((true_positive : ℚ) + (false_positive : ℚ))
  if true_positive + false_negative = 0 then Except.error "ZeroDivisionError" else
  let recall_ : ℚ := (true_positive : ℚ) / ((true_positive : ℚ) + (false_negative : ℚ))
  if recall_ + precision = 0 then Except.error "ZeroDivisionError" else
  Except.ok (accuracy, precision, recall_, 2 * recall_ * precision / (recall_ + precision))

/-- C3: `eval_metrics` fails with a division-by-zero error exactly when one of
its four denominators (`n`, `TP+FP`, `TP+FN`, `P+R`) is zero, and when all four
are nonzero it returns exactly the formula values `TP/n`, `TP/(TP+FP)`,
`TP/(TP+FN)`, `2PR/(P+R)`; it never silently substitutes `0`. -/
theorem eval_metrics_div_zero (tp fp fn n : ℕ) :
    ((∃ e, eval_metrics tp fp fn n = Except.error e) ↔
      (n = 0 ∨ tp + fp = 0 ∨ tp + fn = 0 ∨
        (tp : ℚ) / ((tp : ℚ) + (fn : ℚ)) + (tp : ℚ) / ((tp : ℚ) + (fp : ℚ)) = 0))
    ∧ (n ≠ 0 → tp + fp ≠ 0 → tp + fn ≠ 0 →
        (tp : ℚ) / ((tp : ℚ) + (fn : ℚ)) + (tp : ℚ) / ((tp : ℚ) + (fp : ℚ)) ≠ 0 →
        eval_metrics tp fp fn n = Except.ok
          ((tp : ℚ) / (n : ℚ),
           (tp : ℚ) / ((tp : ℚ) + (fp : ℚ)),
           (tp : ℚ) / ((tp : ℚ) + (fn : ℚ)),
           2 * ((tp : ℚ) / ((tp : ℚ) + (fn : ℚ))) * ((tp : ℚ) / ((tp : ℚ) + (fp : ℚ))) /
             ((tp : ℚ) / ((tp : ℚ) + (fn : ℚ)) + (tp : ℚ) / ((tp : ℚ) + (fp : ℚ))))) := by
  by_cases h1 : n = 0 <;> by_cases h2 : tp + fp = 0 <;> by_cases h3 : tp + fn = 0 <;>
    by_cases h4 : (tp : ℚ) / ((tp : ℚ) + (fn : ℚ)) + (tp : ℚ) / ((tp : ℚ) + (fp : ℚ)) = 0 <;>
    simp [eval_metrics, h1, h2, h3, h4]

/-- Witness for C3 at `TP = FP = FN = 1`, `n = 2`: all four denominators are
nonzero and `eval_metrics` returns the formula values. -/
theorem eval_metrics_div_zero_witness :
    ((2 : ℕ) ≠ 0 ∧ (1 + 1 : ℕ) ≠ 0 ∧
      ((1 : ℕ) : ℚ) / (((1 : ℕ) : ℚ) + ((1 : ℕ) : ℚ)) +
        ((1 : ℕ) : ℚ) / (((1 : ℕ) : ℚ) + ((1 : ℕ) : ℚ)) ≠ 0) ∧
    eval_metrics 1 1 1 2 = Except.ok
      (((1 : ℕ) : ℚ) / ((2 : ℕ) : ℚ),
       ((1 : ℕ) : ℚ) / (((1 : ℕ) : ℚ) + ((1 : ℕ) : ℚ)),
       ((1 : ℕ) : ℚ) / (((1 : ℕ) : ℚ) + ((1 : ℕ) : ℚ)),
       2 * (((1 : ℕ) : ℚ) / (((1 : ℕ) : ℚ) + ((1 : ℕ) : ℚ))) *
           (((1 : ℕ) : ℚ) / (((1 : ℕ) : ℚ) + ((1 : ℕ) : ℚ))) /
         (((1 : ℕ) : ℚ) / (((1 : ℕ) : ℚ) + ((1 : ℕ) : ℚ)) +
           ((1 : ℕ) : ℚ) / (((1 : ℕ) : ℚ) + ((1 : ℕ) : ℚ)))) :=
  ⟨⟨by decide, by decide, by norm_num⟩,
    (eval_metrics_div_zero 1 1 1 2).2 (by decide) (by decide) (by decide) (by norm_num)⟩

/-- Pixel value of a 2D mask grid at row `h`, column `w` (0 outside the grid). -/
def cellVal (mask : List (List ℕ)) (h w : ℕ) : ℕ := (mask.getD h []).getD w 0

/-- The mask grid actually indexed by `get_masked_index`: `mask[:, ::-1]` when
`horizontal_flip` is set, the mask itself otherwise. -/
def maskOf (mask : List (List ℕ)) (horizontal_flip : Bool) : List (List ℕ) :=
  if horizontal_flip then mask.map List.reverse else mask

/-- The `(h, w)` index pairs of one mask row `h` whose pixel is non-zero,
columns ascending. -/
def rowPairs (h : ℕ) (row : List ℕ) : List (ℕ × ℕ) :=
  (List.range row.length).filterMap fun w => if 0 < row.getD w 0 then some (h, w) else none

/-- Row-major scan of the non-zero pixels of a mask grid, starting at row
offset `h`. -/
def maskedPairsFrom : ℕ → List (List ℕ) → List (ℕ × ℕ)
  | _, [] => []
  | h, row :: rest => rowPairs h row ++ maskedPairsFrom (h + 1) rest

/-- The ValidMask index-pair list: the pairs `np.where(mask > 0)` walks, in
row-major scan order. -/
def maskedPairs (mask : List (List ℕ)) : List (ℕ × ℕ) := maskedPairsFrom 0 mask

/-- Valid mask indices, translated from `get_masked_index` in
`individual-detection/src/utils.py` (lines 163-191; the same helper is imported
as `cnn_util.get_masked_index` by `src/model/evaluation.py`).  The mask is
optionally horizontally flipped, then `np.where(mask > 0)` yields the parallel
row-index and column-index arrays of its non-zero pixels. -/
def get_masked_index (mask : List (List ℕ)) (horizontal_flip : Bool) : List ℕ × List ℕ :=
  ((maskedPairs (maskOf mask horizontal_flip)).map Prod.fst,
   (maskedPairs (maskOf mask horizontal_flip)).map Prod.snd)

theorem mem_rowPairs {a b h : ℕ} {row : List ℕ} :
    (a, b) ∈ rowPairs h row ↔ a = h ∧ b < row.length ∧ 0 < row.getD b 0 := by
  simp only [rowPairs, List.mem_filterMap, List.mem_range]
  constructor
  · rintro ⟨w, hw, hsome⟩
    by_cases hc : 0 < row.getD w 0
    · rw [if_pos hc] at hsome
      obtain ⟨rfl, rfl⟩ := Prod.mk.injEq .. ▸ (Option.some.injEq .. ▸ hsome :)
      exact ⟨rfl, hw, hc⟩
    · rw [if_neg hc] at hsome
      cases hsome
  · rintro ⟨rfl, hb, hpos⟩
    exact ⟨b, hb, by rw [if_pos hpos]⟩

theorem rowPairs_nodup (h : ℕ) (row : List ℕ) : (rowPairs h row).Nodup := by
  refine List.Nodup.filterMap ?_ (List.nodup_range _)
  intro w v q hq hq2
  by_cases hcw : 0 < row.getD w 0
  · rw [if_pos hcw, Option.mem_def, Option.some.injEq] at hq
    by_cases hcv : 0 < row.getD v 0
    · rw [if_pos hcv, Option.mem_def, Option.some.injEq] at hq2
      have := hq.trans hq2.symm
      exact (Prod.mk.injEq .. ▸ this).2
    · rw [if_neg hcv] at hq2
      cases hq2
  · rw [if_neg hcw] at hq
    cases hq

theorem maskedPairsFrom_mem_le {h : ℕ} {m : List (List ℕ)} {p : ℕ × ℕ}
    (hp : p ∈ maskedPairsFrom h m) :
    h ≤ p.1 ∧ 0 < (m.getD (p.1 - h) []).getD p.2 0 := by
  induction m generalizing h with
  | nil => cases hp
  | cons row rest ih =>
    obtain ⟨a, b⟩ := p
    rcases List.mem_append.mp hp with hr | hm
    · obtain ⟨rfl, _, hpos⟩ := mem_rowPairs.mp hr
      simpa using hpos
    · obtain ⟨hle, hpos⟩ := ih hm
      refine ⟨by omega, ?_⟩
      have hidx : a - h = (a - (h + 1)) + 1 := by omega
      rw [hidx, List.getD_cons_succ]
      exact hpos

theorem maskedPairsFrom_nodup : ∀ (h : ℕ) (m : List (List ℕ)), (maskedPairsFrom h m).Nodup
  | _, [] => List.nodup_nil
  | h, row :: rest => by
    refine (rowPairs_nodup h row).append (maskedPairsFrom_nodup (h + 1) rest) ?_
    intro p hp1 hp2
    obtain ⟨a, b⟩ := p
    have h1 := (mem_rowPairs.mp hp1).1
    have h2 := (maskedPairsFrom_mem_le hp2).1
    simp only at h1 h2
    omega

theorem maskedPairs_nodup (mask : List (List ℕ)) : (maskedPairs mask).Nodup :=
  maskedPairsFrom_nodup 0 mask

/-- C10: the two index arrays of `get_masked_index` have equal length, each
position `k` pairing one (row, col) index of a non-zero pixel of the
(optionally flipped) mask; the internal assertion
`assert len(index_h) == len(index_w)` can never fail. -/
theorem get_masked_index_parallel (mask : List (List ℕ)) (horizontal_flip : Bool) :
    (get_masked_index mask horizontal_flip).1.length =
      (get_masked_index mask horizontal_flip).2.length ∧
    ∀ k, k < (get_masked_index mask horizontal_flip).1.length →
      0 < cellVal (maskOf mask horizontal_flip)
            ((get_masked_index mask horizontal_flip).1.getD k 0)
            ((get_masked_index mask horizontal_flip).2.getD k 0) := by
  constructor
  · simp [get_masked_index]
  · intro k hk
    simp only [get_masked_index, List.length_map] at hk
    simp only [get_masked_index]
    rw [List.getD_eq_getElem _ _ (by simpa using hk),
      List.getD_eq_getElem _ _ (by simpa using hk)]
    simp only [List.getElem_map]
    have h2 := maskedPairsFrom_mem_le
      (List.getElem_mem (l := maskedPairs (maskOf mask horizontal_flip)) (n := k) hk)
    simpa [cellVal, maskedPairs] using h2.2

/-- Witness for C10 on the mask `[[1,0],[0,2]]` at position `k = 0`. -/
theorem get_masked_index_parallel_witness :
    0 < (get_masked_index [[1, 0], [0, 2]] false).1.length ∧
    0 < cellVal (maskOf [[1, 0], [0, 2]] false)
          ((get_masked_index [[1, 0], [0, 2]] false).1.getD 0 0)
          ((get_masked_index [[1, 0], [0, 2]] false).2.getD 0 0) :=
  ⟨by decide, (get_masked_index_parallel [[1, 0], [0, 2]] false).2 0 (by decide)⟩

/-- Positions `k` with `arr[k] = x`: the index array `np.where(arr == x)[0]`,
ascending. -/
def wherePositions (arr : List ℕ) (x : ℕ) : List ℕ :=
  (List.range arr.length).filter fun k => decide (arr.getD k 0 = x)

/-- Common entries of two position arrays, keeping the order of the first:
`np.intersect1d` on two ascending duplicate-free index arrays. -/
def intersect1d (a b : List ℕ) : List ℕ := a.filter fun k => decide (k ∈ b)

/-- Ground-truth loader, translated from `get_ground_truth` in
`src/model/evaluation.py` (lines 12-40); the CSV rows `(x, y)` are taken
already parsed.  Without a mask the rows are returned as they are.  With a
mask, for each row the code intersects the positions where `valid_w == x`
with the positions where `valid_h == y`; the row is kept exactly when that
intersection has length one, and the kept point is read back from the valid
arrays at the intersection index.  A row that fails the test is skipped
silently. -/
def get_ground_truth (ground_truth_arr : List (ℕ × ℕ)) :
    Option (List (List ℕ)) → Bool → List (ℕ × ℕ)
  | none, _ => ground_truth_arr
  | some mask, horizontal_flip =>
    let valid_h := (get_masked_index mask horizontal_flip).1
    let valid_w := (get_masked_index mask horizontal_flip).2
    ground_truth_arr.filterMap fun p =>
      let index_w := wherePositions valid_w p.1
      let index_h := wherePositions valid_h p.2
      let intersect := intersect1d index_w index_h
      if intersect.length = 1 then
        some (valid_w.getD (intersect.getD 0 0) 0, valid_h.getD (intersect.getD 0 0) 0)
      else none

theorem countP_range_getD (l : List (ℕ × ℕ)) (a d : ℕ × ℕ) :
    (List.range l.length).countP (fun k => decide (l.getD k d = a)) =
      l.countP (fun q => decide (q = a)) := by
  induction l with
  | nil => simp
  | cons b t ih =>
    rw [List.length_cons, List.range_succ_eq_map, List.countP_cons, List.countP_map,
      List.countP_cons]
    have hcomp : (fun k => decide ((b :: t).getD k d = a)) ∘ Nat.succ =
        fun k => decide (t.getD k d = a) := by
      funext k
      simp [List.getD_cons_succ]
    rw [hcomp, ih]
    simp [List.getD_cons_zero]

theorem countP_eq_ite_mem {l : List (ℕ × ℕ)} (hnd : l.Nodup) (a : ℕ × ℕ) :
    l.countP (fun q => decide (q = a)) = if a ∈ l then 1 else 0 := by
  induction l with
  | nil => simp
  | cons b t ih =>
    obtain ⟨hb, ht⟩ := List.nodup_cons.mp hnd
    rw [List.countP_cons, ih ht]
    by_cases hba : b = a
    · subst hba
      simp [hb]
    · simp [hba, Ne.symm hba]

theorem intersect_positions_eq (pairs : List (ℕ × ℕ)) (x y : ℕ) :
    intersect1d (wherePositions (pairs.map Prod.snd) x) (wherePositions (pairs.map Prod.fst) y) =
      (List.range pairs.length).filter fun k => decide (pairs.getD k (0, 0) = (y, x)) := by
  simp only [intersect1d, wherePositions, List.length_map]
  rw [List.filter_filter]
  refine List.filter_congr ?_
  intro k hk
  have hklt : k < pairs.length := List.mem_range.mp hk
  rw [List.getD_eq_getElem _ (0, 0) hklt]
  have hsnd : (pairs.map Prod.snd).getD k 0 = pairs[k].2 := by
    rw [List.getD_eq_getElem _ 0 (by simpa using hklt), List.getElem_map]
  have hfst : (pairs.map Prod.fst).getD k 0 = pairs[k].1 := by
    rw [List.getD_eq_getElem _ 0 (by simpa using hklt), List.getElem_map]
  have hmem : (k ∈ List.filter (fun j => decide ((pairs.map Prod.fst).getD j 0 = y))
      (List.range pairs.length)) = (pairs[k].1 = y) := by
    simp only [List.mem_filter, List.mem_range, hfst, decide_eq_true_eq]
    exact propext (and_iff_right hklt)
  simp only [hsnd, hmem]
  have hiff : (pairs[k] = (y, x)) ↔ (pairs[k].1 = y ∧ pairs[k].2 = x) := by
    rw [Prod.ext_iff]
  by_cases h1 : pairs[k].1 = y <;> by_cases h2 : pairs[k].2 = x <;>
    simp [hiff, h1, h2]

theorem ground_truth_point_test (pairs : List (ℕ × ℕ)) (x y : ℕ) :
    (if (intersect1d (wherePositions (pairs.map Prod.snd) x)
          (wherePositions (pairs.map Prod.fst) y)).length = 1 then
        some ((pairs.map Prod.snd).getD
                ((intersect1d (wherePositions (pairs.map Prod.snd) x)
                  (wherePositions (pairs.map Prod.fst) y)).getD 0 0) 0,
              (pairs.map Prod.fst).getD
                ((intersect1d (wherePositions (pairs.map Prod.snd) x)
                  (wherePositions (pairs.map Prod.fst) y)).getD 0 0) 0)
      else none) =
      if pairs.countP (fun q => decide (q = (y, x))) = 1 then some (x, y) else none := by
  rw [intersect_positions_eq]
  have hlen : ((List.range pairs.length).filter
      fun k => decide (pairs.getD k (0, 0) = (y, x))).length =
      pairs.countP (fun q => decide (q = (y, x))) := by
    rw [← List.countP_eq_length_filter, countP_range_getD]
  by_cases hc : pairs.countP (fun q => decide (q = (y, x))) = 1
  · rw [if_pos (hlen.trans hc), if_pos hc]
    obtain ⟨k, hke⟩ := List.length_eq_one.mp (hlen.trans hc)
    have hkmem : k ∈ (List.range pairs.length).filter
        fun j => decide (pairs.getD j (0, 0) = (y, x)) := by
      rw [hke]
      exact List.mem_singleton_self k
    rw [List.mem_filter, List.mem_range] at hkmem
    obtain ⟨hklt, hkeq⟩ := hkmem
    have hkeq2 : pairs.getD k (0, 0) = (y, x) := of_decide_eq_true hkeq
    rw [hke]
    have hgd : List.getD [k] 0 0 = k := rfl
    rw [hgd]
    rw [List.getD_eq_getElem _ 0 (by simpa using hklt),
      List.getD_eq_getElem _ 0 (by simpa using hklt), List.getElem_map, List.getElem_map]
    rw [List.getD_eq_getElem _ (0, 0) hklt] at hkeq2
    rw [hkeq2]
  · rw [if_neg fun hcon => hc (hlen.symm.trans hcon), if_neg hc]

theorem filterMap_if_eq_filter {γ : Type} (f : γ → Option γ) (q : γ → Bool) (l : List γ)
    (hf : ∀ p, f p = if q p then some p else none) :
    l.filterMap f = l.filter q := by
  induction l with
  | nil => rfl
  | cons a t ih =>
    rw [List.filterMap_cons, List.filter_cons, hf a]
    by_cases hq : q a <;> simp [hq, ih]

theorem get_ground_truth_masked_eq (gt : List (ℕ × ℕ)) (mask : List (List ℕ))
    (horizontal_flip : Bool) :
    get_ground_truth gt (some mask) horizontal_flip =
      gt.filter fun p =>
        decide ((maskedPairs (maskOf mask horizontal_flip)).countP
          (fun q => decide (q = (p.2, p.1))) = 1) := by
  refine filterMap_if_eq_filter _ _ _ ?_
  intro p
  obtain ⟨x, y⟩ := p
  have hpt := ground_truth_point_test (maskedPairs (maskOf mask horizontal_flip)) x y
  simp only [get_masked_index]
  rw [hpt]
  by_cases hc : (maskedPairs (maskOf mask horizontal_flip)).countP
      (fun q => decide (q = (y, x))) = 1 <;> simp [hc]

/-- C5: with a mask, a ground-truth point `(x, y)` is retained by
`get_ground_truth` iff the pair `(y, x)` appears exactly (by equality of the
index pair, and then necessarily exactly once, since the row-major ValidMask
pair list is duplicate-free) among the ValidMask index pairs; a point with no
exact match --- e.g. one a single pixel outside the mask --- is silently
dropped, never an error. -/
theorem ground_truth_mask_exact (gt : List (ℕ × ℕ)) (mask : List (List ℕ))
    (horizontal_flip : Bool) (x y : ℕ) :
    (x, y) ∈ get_ground_truth gt (some mask) horizontal_flip ↔
      (x, y) ∈ gt ∧ (y, x) ∈ maskedPairs (maskOf mask horizontal_flip) := by
  rw [get_ground_truth_masked_eq, List.mem_filter]
  have hite := countP_eq_ite_mem (maskedPairs_nodup (maskOf mask horizontal_flip)) (y, x)
  constructor
  · rintro ⟨hmem, hcnt⟩
    refine ⟨hmem, ?_⟩
    have hone : (maskedPairs (maskOf mask horizontal_flip)).countP
        (fun q => decide (q = (y, x))) = 1 := of_decide_eq_true hcnt
    by_contra hno
    rw [hite, if_neg hno] at hone
    cases hone
  · rintro ⟨hmem, hpair⟩
    refine ⟨hmem, decide_eq_true ?_⟩
    rw [hite, if_pos hpair]

/-- C6 counterexample: for the mask `[[1,0],[0,1]]` the row-major ValidMask
scan meets index pair `(0,0)` before `(1,1)`, i.e. point `(0,0)` before point
`(1,1)`; with input file order `[(1,1),(0,0)]` the loader nevertheless returns
`[(1,1),(0,0)]` --- the input-file order, not the ValidMask scan order
`[(0,0),(1,1)]` the claim predicts. -/
theorem ground_truth_order_counterexample :
    get_ground_truth [(1, 1), (0, 0)] (some [[1, 0], [0, 1]]) false = [(1, 1), (0, 0)] ∧
    get_ground_truth [(1, 1), (0, 0)] (some [[1, 0], [0, 1]]) false ≠ [(0, 0), (1, 1)] := by
  decide

/-- C6 amended: with a mask, `get_ground_truth` returns the retained points in
input-file order (it scans the input rows and tests each against the ValidMask
index pairs, so the result is the sub-list of the input, not the ValidMask
scan order); without a mask it returns the rows unchanged. -/
theorem ground_truth_order_amended (gt : List (ℕ × ℕ)) (mask : List (List ℕ))
    (horizontal_flip : Bool) :
    get_ground_truth gt (some mask) horizontal_flip =
      gt.filter (fun p =>
        decide ((p.2, p.1) ∈ maskedPairs (maskOf mask horizontal_flip))) ∧
    get_ground_truth gt none horizontal_flip = gt := by
  refine ⟨?_, rfl⟩
  rw [get_ground_truth_masked_eq]
  refine List.filter_congr ?_
  intro p hp
  rw [countP_eq_ite_mem (maskedPairs_nodup (maskOf mask horizontal_flip)) (p.2, p.1)]
  by_cases hmem : (p.2, p.1) ∈ maskedPairs (maskOf mask horizontal_flip) <;>
    simp [hmem]

/-- Euclidean distance `np.linalg.norm(est[i] - truth[j])` between two image
points, idealised over the reals. -/
noncomputable def euclidean_distance (p q : ℝ × ℝ) : ℝ :=
  Real.sqrt ((p.1 - q.1) ^ 2 + (p.2 - q.2) ^ 2)

section Matcher

variable {α : Type} [LinearOrderedField α] {β : Type}

/-- The padded `n × n` distance matrix of `evaluate`
(`src/model/evaluation.py`, lines 56-64): entry `(i, j)` is the distance
between the `i`-th estimated centroid and the `j`-th ground-truth point when
both indices are in range, and keeps the initial `np.zeros` value 0 on the
padding rows and columns. -/
def dist_matrix (d : β → β → α) (est ground : List β)
    (i j : Fin (max est.length ground.length)) : α :=
  if h : i.1 < est.length ∧ j.1 < ground.length then
    d (est.get ⟨i.1, h.1⟩) (ground.get ⟨j.1, h.2⟩)
  else 0

/-- Total cost of the assignment that pairs row `i` with column `p[i]`. -/
def pairCost {n : ℕ} (D : Fin n → Fin n → α) (p : List (Fin n)) : α :=
  (((List.finRange n).zip p).map fun ij => D ij.1 ij.2).sum

/-- Minimum-total-cost choice among a list of candidate column assignments
(first minimiser wins, matching a deterministic solver). -/
def pickMinCost {n : ℕ} (D : Fin n → Fin n → α) : List (List (Fin n)) → List (Fin n)
  | [] => []
  | p :: ps => ps.foldl (fun best q => if pairCost D q < pairCost D best then q else best) p

/-- The column assignment returned by `scipy.optimize.linear_sum_assignment`
on the square matrix `D`: row `i` is paired with column
`(linear_sum_assignment D)[i]`.  SciPy is external library code; it is
embedded through its documented contract --- it returns a one-to-one
assignment minimising the total assigned cost (Hungarian algorithm) ---
realised here as the minimum over all column permutations. -/
def linear_sum_assignment {n : ℕ} (D : Fin n → Fin n → α) : List (Fin n) :=
  pickMinCost D (List.finRange n).permutations

/-- The `match_indexes` filter of `evaluate` (lines 68-76): from the assigned
pairs keep those whose truth index (when `n_pred ≥ n_truth`) or prediction
index (otherwise) lies in `valid_lst = range(min(n_pred, n_truth))`. -/
def match_indexes {n : ℕ} (n_pred n_truth : ℕ) (assign : List (Fin n)) :
    List (Fin n × Fin n) :=
  if n_pred ≥ n_truth then
    ((List.finRange n).zip assign).filter fun ij => decide (ij.2.1 < min n_pred n_truth)
  else
    ((List.finRange n).zip assign).filter fun ij => decide (ij.1.1 < min n_pred n_truth)

/-- The counting loop of `evaluate` (lines 86-93) over the matched pairs,
threading `(true_positive, false_positive, false_negative)`: a pair within the
distance threshold increments `true_positive`, any other matched pair
increments both `false_positive` and `false_negative`. -/
def tally {n : ℕ} (D : Fin n → Fin n → α) (t : α) (pairs : List (Fin n × Fin n))
    (acc : ℕ × ℕ × ℕ) : ℕ × ℕ × ℕ :=
  pairs.foldl
    (fun a ij => if D ij.1 ij.2 ≤ t then (a.1 + 1, a.2.1, a.2.2)
      else (a.1, a.2.1 + 1, a.2.2 + 1)) acc

/-- The detection matcher, translated from lines 56-93 of `evaluate` in
`src/model/evaluation.py` (the separated `eval_detection` of
`individual-detection/detector/evaluate.py` runs the same algorithm and hands
the counts to `eval_metrics`).  `false_positive` / `false_negative` are seeded
from the size imbalance and the result is
`(true_positive, false_positive, false_negative, n)` with `n` the padded
matrix dimension `max(n_pred, n_truth)`. -/
def eval_detection (d : β → β → α) (est_centroid_arr ground_truth_arr : List β)
    (dist_treshold : α) : ℕ × ℕ × ℕ × ℕ :=
  let c := tally (dist_matrix d est_centroid_arr ground_truth_arr) dist_treshold
    (match_indexes est_centroid_arr.length ground_truth_arr.length
      (linear_sum_assignment (dist_matrix d est_centroid_arr ground_truth_arr)))
    (0,
     if est_centroid_arr.length > ground_truth_arr.length then
       est_centroid_arr.length - ground_truth_arr.length else 0,
     if est_centroid_arr.length > ground_truth_arr.length then 0
     else ground_truth_arr.length - est_centroid_arr.length)
  (c.1, c.2.1, c.2.2, max est_centroid_arr.length ground_truth_arr.length)

/-- The total matched distance of the matcher: the sum of the distance-matrix
entries over the pairs that survive the `match_indexes` filter (the
non-padding assigned pairs). -/
def total_matched_distance (d : β → β → α) (est ground : List β) : α :=
  ((match_indexes est.length ground.length
      (linear_sum_assignment (dist_matrix d est ground))).map
    fun ij => dist_matrix d est ground ij.1 ij.2).sum

theorem dist_matrix_padding (d : β → β → α) (est ground : List β)
    {i j : Fin (max est.length ground.length)}
    (h : ¬(i.1 < est.length ∧ j.1 < ground.length)) :
    dist_matrix d est ground i j = 0 := dif_neg h

theorem tally_eq {n : ℕ} (D : Fin n → Fin n → α) (t : α) :
    ∀ (pairs : List (Fin n × Fin n)) (acc : ℕ × ℕ × ℕ), tally D t pairs acc =
      (acc.1 + pairs.countP (fun ij => decide (D ij.1 ij.2 ≤ t)),
       acc.2.1 + pairs.countP (fun ij => !(decide (D ij.1 ij.2 ≤ t))),
       acc.2.2 + pairs.countP (fun ij => !(decide (D ij.1 ij.2 ≤ t)))) := by
  intro pairs
  induction pairs with
  | nil => intro acc; simp [tally]
  | cons ij rest ih =>
    intro acc
    have hstep : tally D t (ij :: rest) acc =
        tally D t rest (if D ij.1 ij.2 ≤ t then (acc.1 + 1, acc.2.1, acc.2.2)
          else (acc.1, acc.2.1 + 1, acc.2.2 + 1)) := rfl
    rw [hstep, ih]
    by_cases hle : D ij.1 ij.2 ≤ t <;>
      simp [hle, List.countP_cons] <;> omega

theorem countP_le_add_not {n : ℕ} (D : Fin n → Fin n → α) (t : α)
    (l : List (Fin n × Fin n)) :
    l.countP (fun ij => decide (D ij.1 ij.2 ≤ t)) +
      l.countP (fun ij => !(decide (D ij.1 ij.2 ≤ t))) = l.length := by
  induction l with
  | nil => simp
  | cons ij rest ih =>
    rw [List.countP_cons, List.countP_cons]
    by_cases h : D ij.1 ij.2 ≤ t <;> simp [h] <;> omega

theorem pickMinCost_mem {n : ℕ} (D : Fin n → Fin n → α) :
    ∀ (ps : List (List (Fin n))) (p : List (Fin n)),
      ps.foldl (fun best q => if pairCost D q < pairCost D best then q else best) p ∈
        p :: ps := by
  intro ps
  induction ps with
  | nil => intro p; simp
  | cons q rest ih =>
    intro p
    rw [List.foldl_cons]
    rcases List.mem_cons.mp (ih (if pairCost D q < pairCost D p then q else p)) with
      heq | hmem
    · rw [heq]
      by_cases hc : pairCost D q < pairCost D p <;> simp [hc]
    · exact List.mem_cons_of_mem _ (List.mem_cons_of_mem _ hmem)

theorem pickMinCost_le {n : ℕ} (D : Fin n → Fin n → α) :
    ∀ (ps : List (List (Fin n))) (p q : List (Fin n)), q ∈ p :: ps →
      pairCost D
          (ps.foldl (fun best r => if pairCost D r < pairCost D best then r else best) p) ≤
        pairCost D q := by
  intro ps
  induction ps with
  | nil =>
    intro p q hq
    rcases List.mem_cons.mp hq with rfl | h
    · simp
    · cases h
  | cons r rest ih =>
    intro p q hq
    rw [List.foldl_cons]
    have hsp : pairCost D (if pairCost D r < pairCost D p then r else p) ≤ pairCost D p := by
      by_cases hc : pairCost D r < pairCost D p
      · rw [if_pos hc]; exact le_of_lt hc
      · rw [if_neg hc]
    have hsr : pairCost D (if pairCost D r < pairCost D p then r else p) ≤ pairCost D r := by
      by_cases hc : pairCost D r < pairCost D p
      · rw [if_pos hc]
      · rw [if_neg hc]; exact le_of_not_lt hc
    rcases List.mem_cons.mp hq with rfl | hq2
    · exact le_trans (ih _ _ (List.mem_cons_self _ _)) hsp
    · rcases List.mem_cons.mp hq2 with rfl | hq3
      · exact le_trans (ih _ _ (List.mem_cons_self _ _)) hsr
      · exact ih _ _ (List.mem_cons_of_mem _ hq3)

theorem linear_sum_assignment_perm {n : ℕ} (D : Fin n → Fin n → α) :
    linear_sum_assignment D ~ List.finRange n := by
  have hself : List.finRange n ∈ (List.finRange n).permutations :=
    List.mem_permutations.mpr (List.Perm.refl _)
  rw [linear_sum_assignment]
  cases hp : (List.finRange n).permutations with
  | nil => rw [hp] at hself; cases hself
  | cons p ps =>
    have h2 : pickMinCost D (p :: ps) ∈ p :: ps := pickMinCost_mem D ps p
    have h3 : pickMinCost D (p :: ps) ∈ (List.finRange n).permutations := by
      rw [hp]
      exact h2
    exact List.mem_permutations.mp h3

theorem linear_sum_assignment_min {n : ℕ} (D : Fin n → Fin n → α) {q : List (Fin n)}
    (hq : q ∈ (List.finRange n).permutations) :
    pairCost D (linear_sum_assignment D) ≤ pairCost D q := by
  rw [linear_sum_assignment]
  cases hp : (List.finRange n).permutations with
  | nil => rw [hp] at hq; cases hq
  | cons p ps =>
    rw [hp] at hq
    exact pickMinCost_le D ps p q hq

theorem countP_lt_range (m n : ℕ) :
    (List.range n).countP (fun v => decide (v < m)) = min m n := by
  induction n with
  | zero => simp
  | succ k ih =>
    rw [List.range_succ, List.countP_append, ih, List.countP_singleton]
    by_cases h : k < m <;> simp [h] <;> omega

theorem countP_finRange_lt (m n : ℕ) :
    (List.finRange n).countP (fun j : Fin n => decide (j.1 < m)) = min m n := by
  have hmap : (List.finRange n).countP (fun j : Fin n => decide (j.1 < m)) =
      ((List.finRange n).map Fin.val).countP (fun v => decide (v < m)) := by
    rw [List.countP_map]
    rfl
  rw [hmap, List.map_coe_finRange, countP_lt_range]

theorem match_indexes_length {n : ℕ} {n_pred n_truth : ℕ} (hn : n = max n_pred n_truth)
    {assign : List (Fin n)} (ha : assign ~ List.finRange n) :
    (match_indexes n_pred n_truth assign).length = min n_pred n_truth := by
  have hlen : assign.length = n := ha.length_eq.trans (List.length_finRange n)
  rw [match_indexes]
  by_cases hc : n_pred ≥ n_truth
  · rw [if_pos hc, ← List.countP_eq_length_filter]
    have hmap : ((List.finRange n).zip assign).map Prod.snd = assign :=
      List.map_snd_zip _ _ (by rw [hlen, List.length_finRange])
    have hz : ((List.finRange n).zip assign).countP
          (fun ij => decide (ij.2.1 < min n_pred n_truth)) =
        (((List.finRange n).zip assign).map Prod.snd).countP
          (fun j : Fin n => decide (j.1 < min n_pred n_truth)) := by
      rw [List.countP_map]
      rfl
    rw [hz, hmap, ha.countP_eq, countP_finRange_lt]
    omega
  · rw [if_neg hc, ← List.countP_eq_length_filter]
    have hmap : ((List.finRange n).zip assign).map Prod.fst = List.finRange n :=
      List.map_fst_zip _ _ (by rw [hlen, List.length_finRange])
    have hz : ((List.finRange n).zip assign).countP
          (fun ij => decide (ij.1.1 < min n_pred n_truth)) =
        (((List.finRange n).zip assign).map Prod.fst).countP
          (fun j : Fin n => decide (j.1 < min n_pred n_truth)) := by
      rw [List.countP_map]
      rfl
    rw [hz, hmap, countP_finRange_lt]
    omega

theorem eval_detection_counts (d : β → β → α) (est ground : List β) (t : α) :
    eval_detection d est ground t =
      ((match_indexes est.length ground.length
          (linear_sum_assignment (dist_matrix d est ground))).countP
          (fun ij => decide (dist_matrix d est ground ij.1 ij.2 ≤ t)),
       (if est.length > ground.length then est.length - ground.length else 0) +
         (match_indexes est.length ground.length
            (linear_sum_assignment (dist_matrix d est ground))).countP
            (fun ij => !(decide (dist_matrix d est ground ij.1 ij.2 ≤ t))),
       (if est.length > ground.length then 0 else ground.length - est.length) +
         (match_indexes est.length ground.length
            (linear_sum_assignment (dist_matrix d est ground))).countP
            (fun ij => !(decide (dist_matrix d est ground ij.1 ij.2 ≤ t))),
       max est.length ground.length) := by
  simp only [eval_detection]
  rw [tally_eq]
  simp

/-- C2: for every pair of predicted / ground-truth point sets and every
distance threshold, the matcher counts satisfy `TP + FN = |truth|` and
`TP + FP = |predicted|` --- the imbalance seeding plus the per-pair increments
conserve the set sizes. -/
theorem eval_detection_conservation (est ground : List (ℝ × ℝ)) (t : ℝ) :
    (eval_detection euclidean_distance est ground t).1 +
        (eval_detection euclidean_distance est ground t).2.2.1 = ground.length ∧
      (eval_detection euclidean_distance est ground t).1 +
        (eval_detection euclidean_distance est ground t).2.1 = est.length := by
  rw [eval_detection_counts]
  have hsum := countP_le_add_not (dist_matrix euclidean_distance est ground) t
    (match_indexes est.length ground.length
      (linear_sum_assignment (dist_matrix euclidean_distance est ground)))
  have hmlen := match_indexes_length rfl
    (linear_sum_assignment_perm (dist_matrix euclidean_distance est ground))
  rw [hmlen] at hsum
  by_cases hgt : est.length > ground.length <;> simp only [hgt, if_pos, if_neg, ite_true,
    ite_false, reduceIte] <;> constructor <;> omega

/-- C7: for fixed point sets the matcher's `true_positive` count is monotone
in the distance threshold: the assignment does not depend on the threshold and
a pair within `t1 ≤ t2` is within `t2`. -/
theorem eval_detection_tp_monotone (est ground : List (ℝ × ℝ)) (t1 t2 : ℝ)
    (h : t1 ≤ t2) :
    (eval_detection euclidean_distance est ground t1).1 ≤
      (eval_detection euclidean_distance est ground t2).1 := by
  rw [eval_detection_counts, eval_detection_counts]
  refine List.countP_mono_left ?_
  intro ij hij hd
  exact decide_eq_true (le_trans (of_decide_eq_true hd) h)

/-- Witness for C7 at one-point sets and thresholds `0 ≤ 1`. -/
theorem eval_detection_tp_monotone_witness :
    (0 : ℝ) ≤ 1 ∧
      (eval_detection euclidean_distance [((0 : ℝ), (0 : ℝ))] [((0 : ℝ), (0 : ℝ))] 0).1 ≤
        (eval_detection euclidean_distance [((0 : ℝ), (0 : ℝ))] [((0 : ℝ), (0 : ℝ))] 1).1 :=
  ⟨zero_le_one,
    eval_detection_tp_monotone [((0 : ℝ), (0 : ℝ))] [((0 : ℝ), (0 : ℝ))] 0 1 zero_le_one⟩

/-- C4: on an empty predicted set and an empty truth set the matcher part of
`evaluate` (lines 56-93) returns `n = 0` and `TP = FP = FN = 0` without any
error; the zero division arises only in the subsequent metrics computation
(lines 95-98, the separated `eval_metrics`), which the caller must guard. -/
theorem eval_detection_empty (t : ℝ) :
    eval_detection euclidean_distance ([] : List (ℝ × ℝ)) [] t = (0, 0, 0, 0) ∧
    ∃ e, eval_metrics 0 0 0 0 = Except.error e := by
  constructor
  · simp [eval_detection, match_indexes, tally]
  · exact ⟨"ZeroDivisionError", rfl⟩

theorem sum_map_filter_of_zero {γ : Type} (F : γ → α) (P : γ → Bool) (l : List γ)
    (h0 : ∀ x ∈ l, P x = false → F x = 0) :
    ((l.filter P).map F).sum = (l.map F).sum := by
  induction l with
  | nil => rfl
  | cons a rest ih =>
    rw [List.filter_cons, List.map_cons, List.sum_cons]
    by_cases hp : P a
    · rw [if_pos hp, List.map_cons, List.sum_cons,
        ih fun x hx hfx => h0 x (List.mem_cons_of_mem _ hx) hfx]
    · rw [if_neg hp, ih fun x hx hfx => h0 x (List.mem_cons_of_mem _ hx) hfx,
        h0 a (List.mem_cons_self _ _) (Bool.of_not_eq_true hp), zero_add]

theorem matched_sum_eq_pairCost (d : β → β → α) (est ground : List β)
    {assign : List (Fin (max est.length ground.length))} :
    ((match_indexes est.length ground.length assign).map
        fun ij => dist_matrix d est ground ij.1 ij.2).sum =
      pairCost (dist_matrix d est ground) assign := by
  rw [match_indexes, pairCost]
  by_cases hc : est.length ≥ ground.length
  · rw [if_pos hc]
    refine sum_map_filter_of_zero _ _ _ ?_
    intro ij _ hfalse
    refine dist_matrix_padding d est ground ?_
    intro hcon
    have : ij.2.1 < min est.length ground.length := by omega
    simp [this] at hfalse
  · rw [if_neg hc]
    refine sum_map_filter_of_zero _ _ _ ?_
    intro ij _ hfalse
    refine dist_matrix_padding d est ground ?_
    intro hcon
    have : ij.1.1 < min est.length ground.length := by omega
    simp [this] at hfalse

theorem map_perm_mem_permutations {n : ℕ} (σ : Equiv.Perm (Fin n)) :
    (List.finRange n).map σ ∈ (List.finRange n).permutations := by
  rw [List.mem_permutations]
  refine List.perm_of_nodup_nodup_toFinset_eq
    ((List.nodup_finRange n).map σ.injective) (List.nodup_finRange n) ?_
  ext a
  simp only [List.mem_toFinset, List.mem_map]
  constructor
  · intro _
    exact List.mem_finRange a
  · intro _
    exact ⟨σ.symm a, List.mem_finRange _, σ.apply_symm_apply a⟩

theorem pairCost_map_perm {n : ℕ} (D : Fin n → Fin n → α) (σ : Equiv.Perm (Fin n)) :
    pairCost D ((List.finRange n).map σ) = ∑ i : Fin n, D i (σ i) := by
  rw [pairCost]
  have hz : (List.finRange n).zip ((List.finRange n).map σ) =
      (List.finRange n).map fun i => (i, σ i) := by
    have h1 : (List.finRange n).zip ((List.finRange n).map σ) =
        (List.map id (List.finRange n)).zip ((List.finRange n).map σ) := by
      rw [List.map_id]
    rw [h1, List.zip_map']
    rfl
  rw [hz, List.map_map, Fin.sum_univ_def]
  rfl

/-- C1: the one-to-one pairing chosen by the matcher has total Euclidean
distance over the non-padding pairs no greater than the total distance, over
its non-padding pairs, of any other one-to-one pairing of the padded index
sets --- the assignment is globally optimal, not greedy.  (On the padding
indices the matrix is 0, so the comparison is exactly over real pairs.) -/
theorem detection_matching_optimal (est ground : List (ℝ × ℝ))
    (σ : Equiv.Perm (Fin (max est.length ground.length))) :
    total_matched_distance euclidean_distance est ground ≤
      ∑ i in Finset.univ.filter
        (fun i : Fin (max est.length ground.length) =>
          i.1 < est.length ∧ (σ i).1 < ground.length),
        dist_matrix euclidean_distance est ground i (σ i) := by
  have hfull : ∑ i in Finset.univ.filter
      (fun i : Fin (max est.length ground.length) =>
        i.1 < est.length ∧ (σ i).1 < ground.length),
      dist_matrix euclidean_distance est ground i (σ i) =
      ∑ i : Fin (max est.length ground.length),
        dist_matrix euclidean_distance est ground i (σ i) := by
    refine Finset.sum_filter_of_ne ?_
    intro i _ hne
    by_contra hcon
    exact hne (dist_matrix_padding euclidean_distance est ground hcon)
  rw [hfull, ← pairCost_map_perm, total_matched_distance, matched_sum_eq_pairCost]
  exact linear_sum_assignment_min _ (map_perm_mem_permutations σ)

end Matcher

/-- The `result_dictlist` built by `ParameterStore.__init__`
(`individual-detection/detector/search_parameter.py`, lines 31-46): one empty
value list per configured column name, keys exactly `cols_order`. -/
def parameter_store_init (cols_order : List String) : List (String × List ℚ) :=
  cols_order.map fun key => (key, [])

/-- Python `result_dictlist[key].append(v)` on a present key. -/
def dictAppend (d : List (String × List ℚ)) (key : String) (v : ℚ) :
    List (String × List ℚ) :=
  d.map fun kv => if kv.1 = key then (kv.1, kv.2 ++ [v]) else kv

/-- `np.mean`: arithmetic mean (0 on the empty list, where NumPy produces NaN
with a warning; no claim depends on that value). -/
def npMean (l : List ℚ) : ℚ := l.sum / l.length

/-- `np.percentile` with the default linear interpolation between order
statistics (0 on the empty list, where NumPy raises; no theorem below
exercises that path). -/
def npPercentile (l : List ℚ) (q : ℚ) : ℚ :=
  if l.length = 0 then 0 else
  let s := List.insertionSort (fun a b : ℚ => a ≤ b) l
  let rank : ℚ := q / 100 * ((l.length : ℚ) - 1)
  let lo : ℕ := (Int.floor rank).toNat
  let hi : ℕ := (Int.ceil rank).toNat
  s.getD lo 0 + (s.getD hi 0 - s.getD lo 0) * (rank - Int.floor rank)

/-- `ParameterStore.update_summury_metrics` (lines 81-106): a key not present
in the dictionary is skipped silently (`return`); otherwise the mean or the
requested percentile of the metrics list is appended under the key, and an
unknown summary method only logs. -/
def update_summury_metrics (d : List (String × List ℚ)) (key summury_method : String)
    (metrics_list : List ℚ) (percentile_num : ℚ) : List (String × List ℚ) :=
  if (d.lookup key).isNone then d
  else if summury_method = "mean" then dictAppend d key (npMean metrics_list)
  else if summury_method = "percentile" then
    dictAppend d key (npPercentile metrics_list percentile_num)
  else d

/-- `ParameterStore.store_percentile_results` (lines 108-146): the
calculation-time mean is appended by DIRECT dictionary access
(`self.result_dictlist["calculation_time_per_image_mean"].append(...)`),
raising `KeyError` when that column is absent; the metric means and the
0/25/50/75/100 percentiles go through `update_summury_metrics`. -/
def store_percentile_results (d : List (String × List ℚ))
    (calculation_time_list accuracy_list precision_list recall_list f_measure_list :
      List ℚ) : Except String (List (String × List ℚ)) :=
  if (d.lookup "calculation_time_per_image_mean").isNone then
    Except.error "KeyError: calculation_time_per_image_mean"
  else
    let d1 := dictAppend d "calculation_time_per_image_mean"
      (npMean calculation_time_list)
    let d2 := update_summury_metrics d1 "accuracy_mean" "mean" accuracy_list 0
    let d3 := update_summury_metrics d2 "precision_mean" "mean" precision_list 0
    let d4 := update_summury_metrics d3 "recall_mean" "mean" recall_list 0
    let d5 := update_summury_metrics d4 "f_measure_mean" "mean" f_measure_list 0
    let d6 := [("min", (0 : ℚ)), ("q1", 25), ("med", 50), ("q3", 75),
        ("max", 100)].foldl
      (fun acc kv =>
        let a1 := update_summury_metrics acc ("accuracy_" ++ kv.1) "percentile"
          accuracy_list kv.2
        let a2 := update_summury_metrics a1 ("precision_" ++ kv.1) "percentile"
          precision_list kv.2
        let a3 := update_summury_metrics a2 ("recall_" ++ kv.1) "percentile"
          recall_list kv.2
        update_summury_metrics a3 ("f_measure_" ++ kv.1) "percentile"
          f_measure_list kv.2)
      d5
    Except.ok d6

theorem lookup_dictAppend (d : List (String × List ℚ)) (key : String) (v : ℚ) :
    (dictAppend d key v).lookup key = (d.lookup key).map fun l => l ++ [v] := by
  induction d with
  | nil => rfl
  | cons kv rest ih =>
    obtain ⟨k, b⟩ := kv
    by_cases hk : k = key
    · subst hk
      simp [dictAppend, List.lookup_cons]
    · have hbeq : (key == k) = false := by
        simp [Ne.symm hk]
      simp only [dictAppend, List.map_cons, if_neg hk, List.lookup_cons, hbeq]
      exact ih

/-- C9 counterexample: a store configured without the
`calculation_time_per_image_mean` column.  That summary column (the
calculation-time mean) is absent from `cols_order`, yet
`store_percentile_results` raises `KeyError` instead of skipping it
silently. -/
theorem store_percentile_counterexample :
    (parameter_store_init ["parameter", "sample_number"]).lookup
        "calculation_time_per_image_mean" = none ∧
      store_percentile_results (parameter_store_init ["parameter", "sample_number"])
          [1] [1] [1] [1] [1] =
        Except.error "KeyError: calculation_time_per_image_mean" := by
  exact ⟨rfl, rfl⟩

/-- C9 amended: every summary column routed through `update_summury_metrics`
(the metric means and percentiles) that is absent from the configured columns
is skipped silently --- no error and no state change; a present column
receives exactly one appended summary value per call.  The calculation-time
mean is the exception refuting the original claim: it is appended by direct
dictionary access, and `store_percentile_results` fails with `KeyError` when
its column is absent (see the counterexample). -/
theorem update_summury_metrics_spec (d : List (String × List ℚ)) (key : String)
    (metrics_list : List ℚ) (percentile_num : ℚ) :
    (d.lookup key = none →
      ∀ summury_method, update_summury_metrics d key summury_method metrics_list
        percentile_num = d) ∧
    (∀ l, d.lookup key = some l →
      (update_summury_metrics d key "mean" metrics_list percentile_num).lookup key =
          some (l ++ [npMean metrics_list]) ∧
        (update_summury_metrics d key "percentile" metrics_list
            percentile_num).lookup key =
          some (l ++ [npPercentile metrics_list percentile_num])) := by
  constructor
  · intro hnone summury_method
    rw [update_summury_metrics, if_pos (by rw [hnone]; rfl)]
  · intro l hsome
    have hnotnone : ((d.lookup key).isNone) = false := by
      rw [hsome]
      rfl
    constructor
    · rw [update_summury_metrics, if_neg (by rw [hnotnone]; exact Bool.false_ne_true),
        if_pos rfl, lookup_dictAppend, hsome]
      rfl
    · rw [update_summury_metrics, if_neg (by rw [hnotnone]; exact Bool.false_ne_true),
        if_neg (by decide), if_pos rfl, lookup_dictAppend, hsome]
      rfl

/-- Witness for C9 amended: a store with only the `accuracy_mean` column
present; the key receives exactly one appended mean. -/
theorem update_summury_metrics_spec_witness :
    (parameter_store_init ["accuracy_mean"]).lookup "accuracy_mean" = some [] ∧
      (update_summury_metrics (parameter_store_init ["accuracy_mean"]) "accuracy_mean"
          "mean" [1, 2] 0).lookup "accuracy_mean" = some ([] ++ [npMean [1, 2]]) :=
  ⟨rfl, ((update_summury_metrics_spec (parameter_store_init ["accuracy_mean"])
    "accuracy_mean" [1, 2] 0).2 [] rfl).1⟩


/-- Outcome of one `search` run
(`individual-detection/detector/search_parameter.py`, lines 159-250): either
the terminal `save_results` call persisted the result table, or the
unrecognized-parameter branch logged and returned early (persisting nothing),
or an uncaught `KeyError` from a direct dictionary access propagated out of
`search`. -/
inductive SearchOutcome
  | saved (table : List (String × List ℚ))
  | returnedEarly (logged : List ℚ)
  | raised (msg : String)

/-- Result of processing one candidate value inside the loop of `search`. -/
inductive CandidateResult
  | next (d : List (String × List ℚ))
  | earlyReturn (logged : ℚ)
  | keyError (msg : String)

/-- One run of the dataset-row loop of `search` (lines 186-241) for one
candidate value: each row dispatches on `search_param`; `"threshold"` and
`"prediction_grid"` perform their evaluation work (externally modelled, it
does not influence control flow), any other name logs and returns from
`search` at the first row.  `true` means the row loop ran to completion. -/
def search_rows (search_param : String) : ℕ → Bool
  | 0 => true
  | k + 1 =>
    if search_param = "threshold" then search_rows search_param k
    else if search_param = "prediction_grid" then search_rows search_param k
    else false

/-- One iteration of the candidate-value loop of `search` (lines 180-244).
Lines 182-183 append the candidate value and the dataset size by DIRECT
dictionary access (`result_dictlist["parameter"]` and
`result_dictlist["sample_number"]`), raising `KeyError` when the column is
absent from `cols_order`; then the dataset-row loop runs (the numeric work per
row is externally modelled by `metrics_of`, whose row values fill the
per-image metric lists and do not influence control flow); when no row
returned early, `store_percentile_results` summarises the per-image lists and
its `KeyError` propagates. -/
def search_candidate (search_param : String) (n_rows : ℕ) (param : ℚ)
    (metrics_of : ℕ → ℚ × ℚ × ℚ × ℚ × ℚ) (d : List (String × List ℚ)) :
    CandidateResult :=
  if (d.lookup "parameter").isNone then
    CandidateResult.keyError "KeyError: parameter"
  else if ((dictAppend d "parameter" param).lookup "sample_number").isNone then
    CandidateResult.keyError "KeyError: sample_number"
  else if search_rows search_param n_rows then
    match store_percentile_results
        (dictAppend (dictAppend d "parameter" param) "sample_number" (n_rows : ℚ))
        ((List.range n_rows).map fun i => (metrics_of i).1)
        ((List.range n_rows).map fun i => (metrics_of i).2.1)
        ((List.range n_rows).map fun i => (metrics_of i).2.2.1)
        ((List.range n_rows).map fun i => (metrics_of i).2.2.2.1)
        ((List.range n_rows).map fun i => (metrics_of i).2.2.2.2) with
    | Except.error e => CandidateResult.keyError e
    | Except.ok d3 => CandidateResult.next d3
  else CandidateResult.earlyReturn param

/-- The candidate-value loop of `search`: threads the result store through the
candidates; an early return or an uncaught exception leaves `search` at once,
and running through all candidates reaches `save_results`. -/
def search_go (search_param : String) (n_rows : ℕ)
    (metrics_of : ℚ → ℕ → ℚ × ℚ × ℚ × ℚ × ℚ) :
    List ℚ → List (String × List ℚ) → SearchOutcome
  | [], d => SearchOutcome.saved d
  | param :: rest, d =>
    match search_candidate search_param n_rows param (metrics_of param) d with
    | CandidateResult.next d2 => search_go search_param n_rows metrics_of rest d2
    | CandidateResult.earlyReturn p => SearchOutcome.returnedEarly [p]
    | CandidateResult.keyError e => SearchOutcome.raised e

/-- `search` (lines 159-250): builds the store from `cols_order` (line 179)
and runs the candidate-value loop.  `SearchOutcome.saved` means the terminal
`save_results` persisted the result table; `SearchOutcome.returnedEarly`
lists the `f"{param} is not defined."` log events (the source logs the
candidate value, not the parameter name). -/
def search (cols_order : List String) (search_param : String) (patterns : List ℚ)
    (n_rows : ℕ) (metrics_of : ℚ → ℕ → ℚ × ℚ × ℚ × ℚ × ℚ) : SearchOutcome :=
  search_go search_param n_rows metrics_of patterns (parameter_store_init cols_order)

theorem lookup_parameter_store_init (cols_order : List String) (key : String) :
    (parameter_store_init cols_order).lookup key =
      if key ∈ cols_order then some [] else none := by
  induction cols_order with
  | nil => rfl
  | cons c rest ih =>
    by_cases hc : key = c
    · subst hc
      simp [parameter_store_init, List.lookup_cons]
    · have hbeq : (key == c) = false := by simp [hc]
      simp only [parameter_store_init, List.map_cons, List.lookup_cons, hbeq]
      simp only [parameter_store_init] at ih
      rw [ih]
      simp [List.mem_cons, hc]

theorem lookup_dictAppend_ne (d : List (String × List ℚ)) {key key2 : String}
    (hne : key2 ≠ key) (v : ℚ) :
    (dictAppend d key v).lookup key2 = d.lookup key2 := by
  induction d with
  | nil => rfl
  | cons kv rest ih =>
    obtain ⟨k, b⟩ := kv
    rw [show dictAppend ((k, b) :: rest) key v =
      (if k = key then (k, b ++ [v]) else (k, b)) :: dictAppend rest key v from rfl]
    by_cases hk : k = key
    · rw [if_pos hk]
      have hbeq : (key2 == k) = false := by simp [hk, hne]
      rw [List.lookup_cons, List.lookup_cons, hbeq]
      exact ih
    · rw [if_neg hk]
      by_cases hk2 : key2 = k
      · subst hk2
        simp [List.lookup_cons]
      · have hbeq : (key2 == k) = false := by simp [hk2]
        rw [List.lookup_cons, List.lookup_cons, hbeq]
        exact ih

/-- C8 counterexample: with the unrecognized parameter name `"foo"` but an
empty candidate-value list, the unrecognized-mode branch inside the row loop
is never reached: nothing is logged, `search` does not return early, and
`save_results` still persists the initial all-empty-columns result table. -/
theorem search_unrecognized_counterexample :
    (("foo" : String) ≠ "threshold" ∧ ("foo" : String) ≠ "prediction_grid") ∧
      search ["parameter", "sample_number"] "foo" [] 1 (fun _ _ => (0, 0, 0, 0, 0)) =
        SearchOutcome.saved (parameter_store_init ["parameter", "sample_number"]) := by
  exact ⟨⟨by decide, by decide⟩, rfl⟩

/-- C8 amended: for every search parameter name other than `"threshold"` and
`"prediction_grid"`, provided the candidate-value list and the dataset are
both non-empty and the bookkeeping columns `"parameter"` and
`"sample_number"` are configured in `cols_order` (the appends of lines
182-183 precede the row loop and raise `KeyError` when their column is
absent), `search` logs the unrecognized-mode condition at the first row of
the first candidate value and returns without raising, persisting no result
table. -/
theorem search_unrecognized (cols_order : List String) (search_param : String)
    (param : ℚ) (rest : List ℚ) (n_rows : ℕ)
    (metrics_of : ℚ → ℕ → ℚ × ℚ × ℚ × ℚ × ℚ)
    (h1 : search_param ≠ "threshold") (h2 : search_param ≠ "prediction_grid")
    (h3 : 0 < n_rows) (h4 : "parameter" ∈ cols_order)
    (h5 : "sample_number" ∈ cols_order) :
    search cols_order search_param (param :: rest) n_rows metrics_of =
      SearchOutcome.returnedEarly [param] := by
  obtain ⟨k, rfl⟩ : ∃ k, n_rows = k + 1 := ⟨n_rows - 1, by omega⟩
  have hrow : search_rows search_param (k + 1) = false := by
    rw [search_rows, if_neg h1, if_neg h2]
  have hlook1 : ((parameter_store_init cols_order).lookup "parameter").isNone = false := by
    rw [lookup_parameter_store_init, if_pos h4]
    rfl
  have hlook2 : ((dictAppend (parameter_store_init cols_order) "parameter" param).lookup
      "sample_number").isNone = false := by
    rw [lookup_dictAppend_ne _ (by decide) param, lookup_parameter_store_init, if_pos h5]
    rfl
  have hcand : search_candidate search_param (k + 1) param (metrics_of param)
      (parameter_store_init cols_order) = CandidateResult.earlyReturn param := by
    rw [search_candidate, if_neg (by rw [hlook1]; exact Bool.false_ne_true),
      if_neg (by rw [hlook2]; exact Bool.false_ne_true), hrow]
    simp
  rw [search, search_go, hcand]

/-- Witness for C8 amended: name `"foo"`, one candidate value, one dataset
row, the two bookkeeping columns configured. -/
theorem search_unrecognized_witness :
    (("foo" : String) ≠ "threshold" ∧ ("foo" : String) ≠ "prediction_grid" ∧
      0 < 1 ∧ "parameter" ∈ ["parameter", "sample_number"] ∧
      "sample_number" ∈ ["parameter", "sample_number"]) ∧
      search ["parameter", "sample_number"] "foo" [1] 1 (fun _ _ => (0, 0, 0, 0, 0)) =
        SearchOutcome.returnedEarly [1] :=
  ⟨⟨by decide, by decide, by decide, by decide, by decide⟩,
    search_unrecognized ["parameter", "sample_number"] "foo" 1 [] 1
      (fun _ _ => (0, 0, 0, 0, 0)) (by decide) (by decide) (by decide)
      (by decide) (by decide)⟩

end CnnDensityMap
